import Mathlib

/-!
Shallow embedding of the `writer-ai` Rust service core: the cache-aside
request pipeline (src/rust_service/src/cache.rs, llm.rs, http.rs, errors.rs).

Strings are modelled as `List Char` (`Str`); u64 values as `Nat` with
explicit `% 2^64` where the source's wrapping arithmetic matters; the
system clock is an explicit `now : Nat` parameter (unix seconds); the sled
database is an association list from keys to serialized byte strings.
-/

namespace WriterAI

/-- Strings of the embedded program: lists of characters. -/
abbrev Str := List Char

/-- The constant `2^64`, the modulus of Rust's `u64` arithmetic. -/
def U64MOD : Nat := 2 ^ 64

/-! ## Decimal digits: model of `format!("{}" , u64)` and `str::parse::<u64>` -/

/-- The decimal digit character for `n < 10` (model of Rust's `Display` digits). -/
def digitCh : Nat → Char
  | 0 => '0' | 1 => '1' | 2 => '2' | 3 => '3' | 4 => '4'
  | 5 => '5' | 6 => '6' | 7 => '7' | 8 => '8' | _ => '9'

/-- Numeric value of a decimal digit character. -/
def digitVal (c : Char) : Nat := c.toNat - 48

/-- Fuel-indexed helper for `toDigits`; any `fuel > n` yields the full
decimal expansion. -/
def toDigitsFuel : Nat → Nat → Str
  | 0, _ => []
  | fuel + 1, n =>
    if n < 10 then [digitCh n]
    else toDigitsFuel fuel (n / 10) ++ [digitCh (n % 10)]

/-- Decimal representation of a natural number, most significant digit first:
model of Rust's `u64` `Display` as used by `format!` in `CacheEntry::to_bytes`. -/
def toDigits (n : Nat) : Str := toDigitsFuel (n + 1) n

/-- Accumulate the numeric value of a digit string. -/
def digitsVal (cs : Str) : Nat := cs.foldl (fun a c => a * 10 + digitVal c) 0

/-- Digits-and-bound part of `str::parse::<u64>()`: one or more ASCII digits
whose value fits in a `u64`; anything else errors. -/
def parseU64Body (body : Str) : Option Nat :=
  if body.isEmpty then none
  else if body.all Char.isDigit then
    if digitsVal body < U64MOD then some (digitsVal body) else none
  else none

/-- Model of Rust's `str::parse::<u64>()`: an optional leading `+`, then one or
more ASCII digits, value required to fit in a `u64`; anything else errors. -/
def parseU64 (cs : Str) : Option Nat :=
  parseU64Body (match cs with
    | '+' :: rest => rest
    | _ => cs)

/-! ## Splitting at the delimiter: model of `str::splitn(3, '|')` -/

/-- Split off everything before the first `'|'`; `none` when no delimiter occurs
in the string (the remaining part of one `splitn` step). -/
def splitFirst : Str → Str × Option Str
  | [] => ([], none)
  | c :: rest =>
    if c = '|' then ([], some rest)
    else
      let r := splitFirst rest
      (c :: r.1, r.2)

/-- Model of `data.splitn(3, '|').collect::<Vec<_>>()`: at most three parts,
the last part keeps any further delimiters. -/
def splitn3 (s : Str) : List Str :=
  match splitFirst s with
  | (p1, none) => [p1]
  | (p1, some r1) =>
    match splitFirst r1 with
    | (p2, none) => [p1, p2]
    | (p2, some r2) => [p1, p2, r2]

/-! ## Error type: src/rust_service/src/errors.rs

`AppError` as declared in errors.rs, plus the `CacheError` variant that
cache.rs constructs (errors.rs as shipped has no arm for it in
`IntoResponse`, so `statusCode` maps it to `none`). Error-message payloads
keep the source's fixed prefixes; the interpolated dynamic cause (`{}`)
is dropped, as no claim depends on it. -/
inductive AppError where
  | Config (msg : String)
  | Reqwest (msg : String)
  | SerdeJson (msg : String)
  | LlmApiError (msg : String)
  | Io (msg : String)
  | MissingHomeDir
  | Internal (msg : String)
  | CacheError (msg : String)
deriving DecidableEq, Repr

/-- HTTP status each error converts to (`IntoResponse for AppError`):
502 for `Reqwest` and `LlmApiError`, 500 for the others declared in
errors.rs; `CacheError` has no conversion arm in the source. -/
def AppError.statusCode : AppError → Option Nat
  | .Config _ => some 500
  | .Reqwest _ => some 502
  | .SerdeJson _ => some 500
  | .LlmApiError _ => some 502
  | .Io _ => some 500
  | .MissingHomeDir => some 500
  | .Internal _ => some 500
  | .CacheError _ => none

/-! ## CacheEntry: src/rust_service/src/cache.rs lines 19-82 -/

structure CacheEntry where
  response : Str
  created_at : Nat
  expires_at : Nat
deriving DecidableEq, Repr

namespace CacheEntry

/-- Model of `CacheEntry::new`: `created_at = now`, `expires_at = now + ttl_days*24*60*60`
in wrapping `u64` arithmetic (`now` is the unix-seconds clock value, `< 2^64`). -/
def new (now : Nat) (response : Str) (ttl_days : Nat) : CacheEntry :=
  { response := response
    created_at := now
    expires_at := (now + ttl_days * 24 * 60 * 60 % U64MOD) % U64MOD }

/-- Model of `CacheEntry::to_bytes`: `format!("{}|{}|{}", response, created_at, expires_at)`. -/
def to_bytes (e : CacheEntry) : Str :=
  e.response ++ '|' :: (toDigits e.created_at ++ '|' :: toDigits e.expires_at)

/-- Model of `CacheEntry::from_bytes`: split into at most 3 parts at `'|'`; exactly 3
parts required; the two trailing parts must parse as `u64`. (The source first
decodes UTF-8, which can also fail; values here are already character strings,
so that failure mode is outside the model.) -/
def from_bytes (data : Str) : Except AppError CacheEntry :=
  match splitn3 data with
  | [response, p1, p2] =>
    match parseU64 p1 with
    | none => .error (.CacheError "Invalid created_at timestamp")
    | some created_at =>
      match parseU64 p2 with
      | none => .error (.CacheError "Invalid expires_at timestamp")
      | some expires_at =>
        .ok { response := response, created_at := created_at, expires_at := expires_at }
  | _ => .error (.CacheError "Invalid cache entry format")

/-- Model of `CacheEntry::is_expired`: strict comparison `expires_at < now`. -/
def is_expired (e : CacheEntry) (now : Nat) : Bool :=
  e.expires_at < now

end CacheEntry

/-! ## The sled database: association list from 64-bit keys to byte strings

`sled::Db` holds `Vec<u8>` keys (always the 8-byte big-endian hash here, so a
`Nat` below) and `IVec` values (byte strings, `Str` below). -/

abbrev Db := List (Nat × Str)

/-- Model of `db.get(key)`: first binding for the key, if any. -/
def dbGet : Db → Nat → Option Str
  | [], _ => none
  | (k, v) :: rest, key => if k = key then some v else dbGet rest key

/-- Model of `db.remove(key)`: drop every binding for the key. -/
def dbRemove : Db → Nat → Db
  | [], _ => []
  | (k, v) :: rest, key =>
    if k = key then dbRemove rest key else (k, v) :: dbRemove rest key

/-- Model of `db.insert(key, value)`: overwrite (last write wins). -/
def dbInsert (db : Db) (key : Nat) (v : Str) : Db :=
  (key, v) :: dbRemove db key

/-! ## CacheManager: src/rust_service/src/cache.rs lines 84-207

`DefaultHasher` (SipHash over the combined string, `finish` to a `u64`) is
modelled by an arbitrary function `hashFn : Str → Nat`; every theorem below
is proved for all such functions, so it holds for the source's hasher.
The operations return the result together with the database after the call.
The sled-level I/O error branches (`db.get`/`db.insert` returning `Err`) are
not producible by the association-list database; the pipeline's treatment of
arbitrary cache errors is modelled in `process_text_handler` below. -/

structure CacheConfig where
  enabled : Bool
  ttl_days : Nat
  max_size_mb : Nat
deriving DecidableEq, Repr

namespace CacheManager

/-- Model of `CacheManager::generate_key`: hash of `format!("{}|{}|{}", model,
prompt_template_hash, text)`. -/
def generate_key (hashFn : Str → Nat) (text model : Str) (tmplHash : Nat) : Nat :=
  hashFn (model ++ '|' :: (toDigits tmplHash ++ '|' :: text))

/-- Model of `CacheManager::lookup`. Returns `Ok(None)` when disabled; otherwise reads
the key, propagates a deserialization failure with `?`, deletes an expired
entry and returns `Ok(None)`, else returns the cached response. -/
def lookup (cfg : CacheConfig) (hashFn : Str → Nat) (db : Db) (now : Nat)
    (text model : Str) (tmplHash : Nat) : Except AppError (Option Str) × Db :=
  if !cfg.enabled then (.ok none, db)
  else
    match dbGet db (generate_key hashFn text model tmplHash) with
    | some v =>
      match CacheEntry.from_bytes v with
      | .error e => (.error e, db)
      | .ok entry =>
        if entry.is_expired now then
          (.ok none, dbRemove db (generate_key hashFn text model tmplHash))
        else (.ok (some entry.response), db)
    | none => (.ok none, db)

/-- Model of `CacheManager::store`. No-op when disabled; otherwise serializes a fresh
entry with the configured TTL and overwrites the key. -/
def store (cfg : CacheConfig) (hashFn : Str → Nat) (db : Db) (now : Nat)
    (text response model : Str) (tmplHash : Nat) : Except AppError Unit × Db :=
  if !cfg.enabled then (.ok (), db)
  else
    (.ok (), dbInsert db (generate_key hashFn text model tmplHash)
               (CacheEntry.new now response cfg.ttl_days).to_bytes)

/-- Whether the cleanup sweep removes a stored value: it deserializes and its
`expires_at` is strictly in the past; unreadable entries are skipped. -/
def sweepRemoves (now : Nat) (v : Str) : Bool :=
  match CacheEntry.from_bytes v with
  | .ok entry => entry.expires_at < now
  | .error _ => false

/-- Model of `CacheManager::cleanup_expired`: returns 0 when disabled; otherwise the
net effect of the removal loop — every binding whose value deserializes with
`expires_at < now` is removed and counted, everything else is kept. -/
def cleanup_expired (cfg : CacheConfig) (db : Db) (now : Nat) : Nat × Db :=
  if !cfg.enabled then (0, db)
  else (db.countP (fun kv => sweepRemoves now kv.2),
        db.filter (fun kv => !sweepRemoves now kv.2))

end CacheManager

instance {e a : Type} [DecidableEq e] [DecidableEq a] : DecidableEq (Except e a) := fun x y =>
  match x, y with
  | .ok u, .ok v =>
    if h : u = v then .isTrue (by rw [h]) else .isFalse (fun hc => h (Except.ok.inj hc))
  | .error u, .error v =>
    if h : u = v then .isTrue (by rw [h]) else .isFalse (fun hc => h (Except.error.inj hc))
  | .ok _, .error _ => .isFalse (fun hc => Except.noConfusion hc)
  | .error _, .ok _ => .isFalse (fun hc => Except.noConfusion hc)

/-! ## Provider adapter: src/rust_service/src/llm.rs -/

/-- Does `pat` occur at the start of the string? (one step of Rust's
substring scan). -/
def startsWithPat : Str → Str → Bool
  | [], _ => true
  | _ :: _, [] => false
  | p :: ps, c :: cs => p = c && startsWithPat ps cs

/-- Model of Rust's `str::contains(pat)` for a literal pattern. -/
def containsPat (pat : Str) : Str → Bool
  | [] => startsWithPat pat []
  | c :: rest => startsWithPat pat (c :: rest) || containsPat pat rest

/-- The single recognized placeholder of the prompt template. -/
def inputPat : Str := ['{', 'i', 'n', 'p', 'u', 't', '}']

/-- Model of `template.replace("\x7binput\x7d", x)` (Rust `str::replace`):
scan left to right, substitute each non-overlapping occurrence of the
placeholder, never rescanning the substituted text. -/
def replaceInput (x : Str) : Str → Str
  | [] => []
  | c :: rest =>
    if startsWithPat inputPat (c :: rest) then
      x ++ replaceInput x (rest.drop (inputPat.length - 1))
    else
      c :: replaceInput x rest
termination_by s => s.length
decreasing_by
  · simp only [List.length_cons, List.length_drop]
    omega
  · simp

/-- The prompt sent to the provider (`query_llm` lines 15-22): template with
every placeholder occurrence substituted, or the raw text when no template
is configured. -/
def finalPrompt (template : Option Str) (text : Str) : Str :=
  match template with
  | some t => replaceInput text t
  | none => text

/-- Provider-family test of `query_llm`: the URL contains `"ollama"` or
`"localhost:11434"`. -/
def isOllamaFamily (url : Str) : Bool :=
  containsPat "ollama".toList url || containsPat "localhost:11434".toList url

/-- Application configuration fields consumed by `query_llm`
(src/rust_service/src/config.rs `AppConfig`, cache field per http.rs). -/
structure AppConfig where
  llm_url : Str
  model_name : Str
  prompt_template : Option Str
  openai_api_key : Option Str
  openai_org_id : Option Str
  openai_project_id : Option Str
  cache : CacheConfig

/-- The request as assembled by `query_llm` before `send` (URL, prompt and
headers; the JSON payload body is built from the same prompt and cannot
fail). -/
structure LlmRequest where
  url : Str
  prompt : Str
  authHeader : Option Str
  orgHeader : Option Str
  projectHeader : Option Str
deriving DecidableEq

/-- The phase of `query_llm` up to the network call (llm.rs lines 15-131):
builds the final prompt and attaches headers. Returning an error means no
request was constructed, hence nothing was sent. For a non-Ollama-family URL
a missing API key aborts with `LlmApiError("Missing OpenAI API key")`; the
Ollama family attaches no auth headers and never consults the key. -/
def buildLlmRequest (cfg : AppConfig) (text : Str) : Except AppError LlmRequest :=
  let final_prompt := finalPrompt cfg.prompt_template text
  if !(isOllamaFamily cfg.llm_url) then
    match cfg.openai_api_key with
    | none => .error (.LlmApiError "Missing OpenAI API key")
    | some key =>
      .ok { url := cfg.llm_url
            prompt := final_prompt
            authHeader := some ("Bearer ".toList ++ key)
            orgHeader := cfg.openai_org_id
            projectHeader := cfg.openai_project_id }
  else
    .ok { url := cfg.llm_url
          prompt := final_prompt
          authHeader := none
          orgHeader := none
          projectHeader := none }

/-- Model of Rust's `char::is_whitespace`: the Unicode `White_Space`
property (U+0009-U+000D, U+0020, U+0085, U+00A0, U+1680, U+2000-U+200A,
U+2028, U+2029, U+202F, U+205F, U+3000). -/
def isUnicodeWs (c : Char) : Bool :=
  (0x09 ≤ c.toNat && c.toNat ≤ 0x0D) || c.toNat == 0x20 || c.toNat == 0x85 ||
  c.toNat == 0xA0 || c.toNat == 0x1680 ||
  (0x2000 ≤ c.toNat && c.toNat ≤ 0x200A) || c.toNat == 0x2028 ||
  c.toNat == 0x2029 || c.toNat == 0x202F || c.toNat == 0x205F ||
  c.toNat == 0x3000

/-- Model of `str::trim`: drop leading and trailing Unicode whitespace. -/
def trimChars (s : Str) : Str :=
  ((s.dropWhile isUnicodeWs).reverse.dropWhile isUnicodeWs).reverse

/-- Model of Rust's `char::len_utf8`: the number of UTF-8 bytes encoding the
character. -/
def lenUtf8 (c : Char) : Nat :=
  if c.toNat < 0x80 then 1
  else if c.toNat < 0x800 then 2
  else if c.toNat < 0x10000 then 3
  else 4

/-- Model of `str::len`: the length of the string in UTF-8 bytes (Rust string
lengths and slice indices are byte-based). -/
def byteLen (s : Str) : Nat := (s.map lenUtf8).sum

/-- Model of the byte slice `&s[..n]`: the prefix of the string occupying
exactly `n` UTF-8 bytes. Returns `none` — the slice panics — when `n` exceeds
the string's byte length or falls in the middle of a character's encoding. -/
def byteTake : Nat → Str → Option Str
  | 0, _ => some []
  | _ + 1, [] => none
  | n + 1, c :: rest =>
    if lenUtf8 c ≤ n + 1 then
      (byteTake (n + 1 - lenUtf8 c) rest).map (fun pre => c :: pre)
    else none

/-- The marker appended to truncated responses. -/
def truncMarker : Str := ['.', '.', '.']

/-- The `max_length` constant in both response-parsing branches of `query_llm`;
it is compared against `trimmed.len()`, a byte count. -/
def MAX_LENGTH : Nat := 2000

/-- Post-processing of a successfully extracted provider response text,
identical in the Ollama branch (llm.rs 176-188) and the OpenAI branch
(llm.rs 199-211): trim, then if `trimmed.len()` (UTF-8 bytes) exceeds
`MAX_LENGTH`, return the byte slice `trimmed[..MAX_LENGTH]` with the marker
appended. `none` models the panic of the byte slice when byte offset
`MAX_LENGTH` is not a character boundary. -/
def truncateExtracted (content : Str) : Option Str :=
  if byteLen (trimChars content) > MAX_LENGTH then
    (byteTake MAX_LENGTH (trimChars content)).map (fun pre => pre ++ truncMarker)
  else
    some (trimChars content)

/-! ## Request pipeline: src/rust_service/src/http.rs `process_text_handler`

The handler's control flow over the outcomes of its three effectful
collaborators. `lookupRes` is the full result of `CacheManager::lookup`
(including sled-level errors), `providerRes` the result of `query_llm`,
`storeRes` the result of `CacheManager::store`. With caching enabled, a hit
returns the cached response; a miss or a lookup error falls through to the
provider; a store failure is only logged (`warn!`), the provider response is
returned regardless. With caching disabled the provider result is the
response. -/
def process_text_handler (cacheEnabled : Bool)
    (lookupRes : Except AppError (Option Str))
    (providerRes : Except AppError Str)
    (storeRes : Except AppError Unit) : Except AppError Str :=
  if cacheEnabled then
    match lookupRes with
    | .ok (some cached) => .ok cached
    | .ok none =>
      match providerRes with
      | .error e => .error e
      | .ok resp =>
        match storeRes with
        | .error _ => .ok resp
        | .ok _ => .ok resp
    | .error _ =>
      match providerRes with
      | .error e => .error e
      | .ok resp =>
        match storeRes with
        | .error _ => .ok resp
        | .ok _ => .ok resp
  else
    match providerRes with
    | .error e => .error e
    | .ok resp => .ok resp



/-- Modelled from the spec's wording for the template rule ("replacing every
occurrence of the substring `\x7binput\x7d` in the template with the raw input
text"): a template decomposed into the segments between occurrences, joined
by a separator. Used only on the spec side of the C10 refinement. -/
def joinWith (sep : Str) : List Str → Str
  | [] => []
  | [p] => p
  | p :: q :: rest => p ++ sep ++ joinWith sep (q :: rest)

/-! ## Supporting lemmas -/

theorem digitVal_digitCh {n : Nat} (h : n < 10) : digitVal (digitCh n) = n := by
  interval_cases n <;> decide

theorem isDigit_digitCh (n : Nat) : (digitCh n).isDigit = true := by
  unfold digitCh
  split <;> decide

theorem toDigitsFuel_ne_nil {fuel n : Nat} (h : n < fuel) :
    toDigitsFuel fuel n ≠ [] := by
  cases fuel with
  | zero => omega
  | succ f =>
    rw [toDigitsFuel]
    split
    · simp
    · simp

theorem toDigits_ne_nil (n : Nat) : toDigits n ≠ [] :=
  toDigitsFuel_ne_nil (Nat.lt_succ_self n)

theorem toDigitsFuel_all_digit {fuel : Nat} :
    ∀ {n : Nat}, n < fuel → (toDigitsFuel fuel n).all Char.isDigit = true := by
  induction fuel with
  | zero => omega
  | succ f ih =>
    intro n h
    rw [toDigitsFuel]
    split
    · simp [isDigit_digitCh]
    · rename_i hge
      rw [List.all_append]
      have hd : n / 10 < f := by omega
      simp [ih hd, isDigit_digitCh]

theorem toDigits_all_digit (n : Nat) : (toDigits n).all Char.isDigit = true :=
  toDigitsFuel_all_digit (Nat.lt_succ_self n)

theorem digitsVal_append_single (cs : Str) (c : Char) :
    digitsVal (cs ++ [c]) = digitsVal cs * 10 + digitVal c := by
  simp [digitsVal, List.foldl_append]

theorem digitsVal_toDigitsFuel {fuel : Nat} :
    ∀ {n : Nat}, n < fuel → digitsVal (toDigitsFuel fuel n) = n := by
  induction fuel with
  | zero => omega
  | succ f ih =>
    intro n h
    rw [toDigitsFuel]
    split
    · rename_i hlt
      simp [digitsVal, digitVal_digitCh hlt]
    · rename_i hge
      rw [digitsVal_append_single]
      have hd : n / 10 < f := by omega
      rw [ih hd, digitVal_digitCh (Nat.mod_lt n (by omega))]
      omega

theorem digitsVal_toDigits (n : Nat) : digitsVal (toDigits n) = n :=
  digitsVal_toDigitsFuel (Nat.lt_succ_self n)

theorem toDigits_head_not_plus (n : Nat) :
    ∀ rest, toDigits n ≠ '+' :: rest := by
  intro rest hEq
  have hall := toDigits_all_digit n
  rw [hEq] at hall
  simp [List.all_cons] at hall

theorem parseU64Body_toDigits {n : Nat} (h : n < U64MOD) :
    parseU64Body (toDigits n) = some n := by
  unfold parseU64Body
  cases he : (toDigits n).isEmpty with
  | true =>
    exact absurd (List.isEmpty_iff.mp he) (toDigits_ne_nil n)
  | false =>
    simp only [if_false, Bool.false_eq_true]
    rw [toDigits_all_digit n, digitsVal_toDigits n]
    simp [h]

theorem parseU64_toDigits {n : Nat} (h : n < U64MOD) :
    parseU64 (toDigits n) = some n := by
  unfold parseU64
  have hbody : (match toDigits n with
      | '+' :: rest => rest
      | _ => toDigits n) = toDigits n := by
    cases hd : toDigits n with
    | nil => rfl
    | cons c rest =>
      by_cases hc : c = '+'
      · subst hc
        exact absurd hd (toDigits_head_not_plus n rest)
      · split
        · rename_i heq
          injection heq with h1 h2
          exact absurd h1 hc
        · rfl
  rw [hbody]
  exact parseU64Body_toDigits h

/-- No decimal digit is the delimiter character. -/
theorem delim_not_mem_toDigits (n : Nat) : '|' ∉ toDigits n := by
  intro hmem
  have hall := toDigits_all_digit n
  rw [List.all_eq_true] at hall
  have := hall _ hmem
  simp [Char.isDigit] at this

theorem splitFirst_no_delim {p : Str} (h : '|' ∉ p) :
    splitFirst p = (p, none) := by
  induction p with
  | nil => rfl
  | cons c rest ih =>
    rw [List.mem_cons, not_or] at h
    rw [splitFirst]
    rw [if_neg (fun hc => h.1 hc.symm)]
    simp [ih h.2]

theorem splitFirst_append_delim {p : Str} (h : '|' ∉ p) (s : Str) :
    splitFirst (p ++ '|' :: s) = (p, some s) := by
  induction p with
  | nil => simp [splitFirst]
  | cons c rest ih =>
    rw [List.mem_cons, not_or] at h
    rw [List.cons_append, splitFirst]
    rw [if_neg (fun hc => h.1 hc.symm)]
    simp [ih h.2]

/-- Round trip of the codec for delimiter-free responses with `u64` timestamps. -/
theorem from_bytes_to_bytes (e : CacheEntry) (hresp : '|' ∉ e.response)
    (hc : e.created_at < U64MOD) (hx : e.expires_at < U64MOD) :
    CacheEntry.from_bytes (CacheEntry.to_bytes e) = .ok e := by
  unfold CacheEntry.to_bytes CacheEntry.from_bytes
  have h3 : splitn3 (e.response ++ '|' :: (toDigits e.created_at ++ '|' :: toDigits e.expires_at))
      = [e.response, toDigits e.created_at, toDigits e.expires_at] := by
    unfold splitn3
    simp only [splitFirst_append_delim hresp,
      splitFirst_append_delim (delim_not_mem_toDigits e.created_at)]
  rw [h3]
  simp [parseU64_toDigits hc, parseU64_toDigits hx]

theorem dbGet_insert_self (db : Db) (key : Nat) (v : Str) :
    dbGet (dbInsert db key v) key = some v := by
  simp [dbInsert, dbGet]

theorem mem_dbRemove {kv : Nat × Str} {db : Db} {key : Nat}
    (h : kv ∈ dbRemove db key) : kv ∈ db := by
  induction db with
  | nil => simp [dbRemove] at h
  | cons hd tl ih =>
    obtain ⟨k, v⟩ := hd
    rw [dbRemove] at h
    by_cases hk : k = key
    · rw [if_pos hk] at h
      exact List.mem_cons_of_mem _ (ih h)
    · rw [if_neg hk] at h
      rcases List.mem_cons.mp h with h1 | h2
      · exact h1 ▸ List.mem_cons_self _ _
      · exact List.mem_cons_of_mem _ (ih h2)

theorem dbGet_dbRemove_self (db : Db) (key : Nat) :
    dbGet (dbRemove db key) key = none := by
  induction db with
  | nil => rfl
  | cons hd tl ih =>
    obtain ⟨k, v⟩ := hd
    rw [dbRemove]
    by_cases hk : k = key
    · rw [if_pos hk]
      exact ih
    · rw [if_neg hk, dbGet, if_neg hk]
      exact ih

/-- The database after a `lookup` is the old one, possibly with the probed
key removed. -/
theorem lookup_snd_cases (cfg : CacheConfig) (hashFn : Str → Nat) (db : Db)
    (now : Nat) (text model : Str) (tmplHash : Nat) :
    (CacheManager.lookup cfg hashFn db now text model tmplHash).2 = db ∨
    (CacheManager.lookup cfg hashFn db now text model tmplHash).2
      = dbRemove db (CacheManager.generate_key hashFn text model tmplHash) := by
  unfold CacheManager.lookup
  split
  · exact Or.inl rfl
  · split
    · split
      · exact Or.inl rfl
      · split
        · exact Or.inr rfl
        · exact Or.inl rfl
    · exact Or.inl rfl

theorem startsWithPat_length_le {pat s : Str} (h : startsWithPat pat s = true) :
    pat.length ≤ s.length := by
  induction pat generalizing s with
  | nil => simp
  | cons p ps ih =>
    cases s with
    | nil => simp [startsWithPat] at h
    | cons c cs =>
      rw [startsWithPat, Bool.and_eq_true] at h
      simpa using ih h.2

theorem dropWhile_eq_self_of_no_sat {p : Char → Bool} {s : Str}
    (h : ∀ c ∈ s, p c = false) : s.dropWhile p = s := by
  cases s with
  | nil => rfl
  | cons c rest =>
    rw [List.dropWhile_cons, h c (List.mem_cons_self _ _)]
    simp

theorem trimChars_of_no_ws {s : Str}
    (h : ∀ c ∈ s, isUnicodeWs c = false) : trimChars s = s := by
  unfold trimChars
  rw [dropWhile_eq_self_of_no_sat h]
  rw [dropWhile_eq_self_of_no_sat (fun c hc => h c (List.mem_reverse.mp hc))]
  exact List.reverse_reverse s

theorem byteLen_replicate (n : Nat) (c : Char) :
    byteLen (List.replicate n c) = n * lenUtf8 c := by
  induction n with
  | zero => simp [byteLen]
  | succ m ih =>
    rw [List.replicate_succ]
    simp only [byteLen, List.map_cons, List.sum_cons] at ih ⊢
    rw [ih]
    ring

theorem lenUtf8_pos (c : Char) : 1 ≤ lenUtf8 c := by
  unfold lenUtf8
  split
  · omega
  · split
    · omega
    · split <;> omega

theorem byteTake_some_byteLen :
    ∀ {s : Str} {n : Nat} {pre : Str}, byteTake n s = some pre → byteLen pre = n := by
  intro s
  induction s with
  | nil =>
    intro n pre h
    cases n with
    | zero =>
      rw [byteTake] at h
      cases h
      rfl
    | succ m =>
      rw [byteTake] at h
      cases h
  | cons c rest ih =>
    intro n pre h
    cases n with
    | zero =>
      rw [byteTake] at h
      cases h
      rfl
    | succ m =>
      rw [byteTake] at h
      by_cases hsz : lenUtf8 c ≤ m + 1
      · rw [if_pos hsz] at h
        cases hrec : byteTake (m + 1 - lenUtf8 c) rest with
        | none => rw [hrec] at h; cases h
        | some pre2 =>
          rw [hrec] at h
          cases h
          have := ih hrec
          simp only [byteLen, List.map_cons, List.sum_cons]
          simp only [byteLen] at this
          omega
      · rw [if_neg hsz] at h
        cases h

theorem byteTake_replicate {c : Char} :
    ∀ (k m : Nat), k ≤ m →
      byteTake (k * lenUtf8 c) (List.replicate m c) = some (List.replicate k c) := by
  intro k
  induction k with
  | zero =>
    intro m _
    rw [Nat.zero_mul]
    simp [byteTake]
  | succ j ih =>
    intro m hk
    cases m with
    | zero => omega
    | succ m2 =>
      have hpos := lenUtf8_pos c
      have hexp : (j + 1) * lenUtf8 c = j * lenUtf8 c + lenUtf8 c := by ring
      obtain ⟨i, hi⟩ : ∃ i, (j + 1) * lenUtf8 c = i + 1 :=
        ⟨j * lenUtf8 c + lenUtf8 c - 1, by omega⟩
      rw [hi, List.replicate_succ, byteTake]
      rw [if_pos (by omega : lenUtf8 c ≤ i + 1)]
      have harg : i + 1 - lenUtf8 c = j * lenUtf8 c := by omega
      rw [harg, ih m2 (by omega)]
      rfl

theorem byteTake_replicate_mid {c : Char} {r : Nat}
    (hr1 : 1 ≤ r) (hr2 : r < lenUtf8 c) :
    ∀ (k m : Nat), k ≤ m →
      byteTake (k * lenUtf8 c + r) (List.replicate m c) = none := by
  intro k
  induction k with
  | zero =>
    intro m _
    rw [Nat.zero_mul, Nat.zero_add]
    obtain ⟨i, hi⟩ : ∃ i, r = i + 1 := ⟨r - 1, by omega⟩
    cases m with
    | zero =>
      rw [hi]
      rfl
    | succ m2 =>
      rw [hi, List.replicate_succ, byteTake]
      rw [if_neg (by omega : ¬ lenUtf8 c ≤ i + 1)]
  | succ j ih =>
    intro m hk
    cases m with
    | zero => omega
    | succ m2 =>
      have hpos := lenUtf8_pos c
      have hexp : (j + 1) * lenUtf8 c = j * lenUtf8 c + lenUtf8 c := by ring
      obtain ⟨i, hi⟩ : ∃ i, (j + 1) * lenUtf8 c + r = i + 1 :=
        ⟨j * lenUtf8 c + lenUtf8 c + r - 1, by omega⟩
      rw [hi, List.replicate_succ, byteTake]
      have hle : lenUtf8 c ≤ i + 1 := by omega
      rw [if_pos hle]
      have harg : i + 1 - lenUtf8 c = j * lenUtf8 c + r := by omega
      rw [harg, ih m2 (by omega)]
      rfl

theorem startsWithPat_inputPat_false {c : Char} (hc : c ≠ '{') (s : Str) :
    startsWithPat inputPat (c :: s) = false := by
  rw [inputPat, startsWithPat]
  rw [decide_eq_false (fun h : '{' = c => hc h.symm)]
  exact Bool.false_and _

theorem replaceInput_nil (x : Str) : replaceInput x [] = [] := by
  rw [replaceInput]

theorem replaceInput_skip (x : Str) {p : Str} (hp : '{' ∉ p) (s : Str) :
    replaceInput x (p ++ s) = p ++ replaceInput x s := by
  induction p with
  | nil => rfl
  | cons c rest ih =>
    rw [List.mem_cons, not_or] at hp
    have hc : c ≠ '{' := fun h => hp.1 h.symm
    rw [List.cons_append, replaceInput,
      if_neg (by rw [startsWithPat_inputPat_false hc]; simp)]
    rw [ih hp.2]
    simp

theorem replaceInput_pat (x : Str) (s : Str) :
    replaceInput x (inputPat ++ s) = x ++ replaceInput x s := by
  have hstart : startsWithPat inputPat (inputPat ++ s) = true := by
    rw [inputPat]
    simp [startsWithPat]
  have hdrop : ∀ t : Str, (['i', 'n', 'p', 'u', 't', '}'] ++ t).drop 6 = t :=
    fun t => rfl
  rw [show inputPat ++ s = '{' :: (['i', 'n', 'p', 'u', 't', '}'] ++ s) from rfl]
  rw [replaceInput]
  rw [show startsWithPat inputPat ('{' :: (['i', 'n', 'p', 'u', 't', '}'] ++ s))
      = true from hstart]
  rw [if_pos rfl]
  rw [show inputPat.length - 1 = 6 from rfl, hdrop]

theorem replaceInput_joinWith (x : Str) :
    ∀ (parts : List Str), (∀ p ∈ parts, '{' ∉ p) →
      replaceInput x (joinWith inputPat parts) = joinWith x parts := by
  intro parts
  induction parts with
  | nil =>
    intro _
    rw [show joinWith inputPat [] = [] from rfl, replaceInput_nil]
    rfl
  | cons p rest ih =>
    intro hall
    cases rest with
    | nil =>
      rw [joinWith, joinWith]
      have : replaceInput x (p ++ []) = p ++ replaceInput x [] :=
        replaceInput_skip x (hall p (List.mem_cons_self _ _)) []
      simpa [replaceInput_nil] using this
    | cons q rest2 =>
      rw [joinWith, joinWith]
      rw [List.append_assoc]
      rw [replaceInput_skip x (hall p (List.mem_cons_self _ _))]
      rw [replaceInput_pat]
      rw [ih (fun r hr => hall r (List.mem_cons_of_mem _ hr))]
      simp [List.append_assoc]

theorem startsWithPat_append_ext {pat u : Str} (h : startsWithPat pat u = true)
    (w : Str) : startsWithPat pat (u ++ w) = true := by
  induction pat generalizing u with
  | nil => rfl
  | cons p ps ih =>
    cases u with
    | nil => simp [startsWithPat] at h
    | cons c cs =>
      rw [startsWithPat, Bool.and_eq_true] at h
      rw [List.cons_append, startsWithPat, Bool.and_eq_true]
      exact ⟨h.1, ih h.2⟩

theorem startsWithPat_exists_suffix {pat t : Str}
    (h : startsWithPat pat t = true) : ∃ suf, t = pat ++ suf := by
  induction pat generalizing t with
  | nil => exact ⟨t, rfl⟩
  | cons p ps ih =>
    cases t with
    | nil => simp [startsWithPat] at h
    | cons c cs =>
      rw [startsWithPat, Bool.and_eq_true] at h
      obtain ⟨suf, hs⟩ := ih h.2
      have hpc : p = c := by simpa using h.1
      exact ⟨suf, by rw [List.cons_append, ← hs, hpc]⟩

/-- The first occurrence of the placeholder splits a template into a
placeholder-free prefix, the placeholder, and a remainder. -/
theorem containsPat_first_occurrence :
    ∀ {t : Str}, containsPat inputPat t = true →
      ∃ pre suf, t = pre ++ (inputPat ++ suf) ∧
        containsPat inputPat pre = false := by
  intro t
  induction t with
  | nil =>
    intro h
    exact absurd h (by decide)
  | cons c cs ih =>
    intro h
    cases hsw : startsWithPat inputPat (c :: cs) with
    | true =>
      obtain ⟨suf, hs⟩ := startsWithPat_exists_suffix hsw
      exact ⟨[], suf, by rw [List.nil_append, ← hs], by decide⟩
    | false =>
      have h2 : containsPat inputPat cs = true := by
        rw [containsPat, hsw, Bool.false_or] at h
        exact h
      obtain ⟨pre, suf, heq, hfree⟩ := ih h2
      refine ⟨c :: pre, suf, by rw [List.cons_append, heq], ?_⟩
      rw [containsPat]
      cases hsw2 : startsWithPat inputPat (c :: pre) with
      | false =>
        rw [hfree]
        rfl
      | true =>
        exfalso
        have hext := startsWithPat_append_ext hsw2 (inputPat ++ suf)
        rw [List.cons_append, ← heq] at hext
        rw [hext] at hsw
        cases hsw

/-- The placeholder cannot straddle a junction: its only `'{'` is at position
0, so a match beginning inside a placeholder-free block `u` and running into
an adjacent explicit placeholder is impossible unless `u` is empty. -/
theorem startsWithPat_inputPat_junction {u v : Str}
    (hu : containsPat inputPat u = false)
    (h : startsWithPat inputPat (u ++ (inputPat ++ v)) = true) : u = [] := by
  rcases u with _ | ⟨c1, _ | ⟨c2, _ | ⟨c3, _ | ⟨c4, _ | ⟨c5, _ | ⟨c6, _ | ⟨c7, rest⟩⟩⟩⟩⟩⟩⟩
  · rfl
  · exfalso
    simp [inputPat, startsWithPat] at h
  · exfalso
    simp [inputPat, startsWithPat] at h
  · exfalso
    simp [inputPat, startsWithPat] at h
  · exfalso
    simp [inputPat, startsWithPat] at h
  · exfalso
    simp [inputPat, startsWithPat] at h
  · exfalso
    simp [inputPat, startsWithPat] at h
  · exfalso
    simp [inputPat, startsWithPat] at h
    obtain ⟨h1, h2, h3, h4, h5, h6, h7⟩ := h
    subst h1
    subst h2
    subst h3
    subst h4
    subst h5
    subst h6
    subst h7
    simp [containsPat, startsWithPat, inputPat] at hu

/-- A placeholder-free string passes through `replaceInput` unchanged. -/
theorem replaceInput_of_not_contains (x : Str) :
    ∀ {p : Str}, containsPat inputPat p = false → replaceInput x p = p := by
  intro p
  induction p with
  | nil => intro _; exact replaceInput_nil x
  | cons c cs ih =>
    intro h
    rw [containsPat] at h
    have hsw : startsWithPat inputPat (c :: cs) = false := by
      cases hx : startsWithPat inputPat (c :: cs) with
      | false => rfl
      | true => rw [hx, Bool.true_or] at h; cases h
    have hrest : containsPat inputPat cs = false := by
      rw [hsw, Bool.false_or] at h
      exact h
    rw [replaceInput, if_neg (by rw [hsw]; simp), ih hrest]

/-- Scanning a placeholder-free block followed by an explicit placeholder:
the block passes through and the placeholder is substituted. -/
theorem replaceInput_passthrough (x : Str) :
    ∀ {p : Str}, containsPat inputPat p = false → ∀ (s : Str),
      replaceInput x (p ++ (inputPat ++ s)) = p ++ x ++ replaceInput x s := by
  intro p
  induction p with
  | nil =>
    intro _ s
    rw [List.nil_append, replaceInput_pat]
    simp
  | cons c cs ih =>
    intro h s
    rw [containsPat] at h
    have hparts : startsWithPat inputPat (c :: cs) = false
        ∧ containsPat inputPat cs = false := by
      cases hx : startsWithPat inputPat (c :: cs) with
      | true => rw [hx, Bool.true_or] at h; cases h
      | false => rw [hx, Bool.false_or] at h; exact ⟨rfl, h⟩
    have hsw : startsWithPat inputPat (c :: (cs ++ (inputPat ++ s))) = false := by
      cases hx : startsWithPat inputPat (c :: (cs ++ (inputPat ++ s))) with
      | false => rfl
      | true =>
        exfalso
        have hjun := startsWithPat_inputPat_junction
          (u := c :: cs) (v := s)
          (by rw [containsPat, hparts.1, hparts.2]; rfl)
          (by rw [List.cons_append]; exact hx)
        cases hjun
    rw [List.cons_append, replaceInput, if_neg (by rw [hsw]; simp)]
    rw [ih hparts.2 s]
    simp

/-- Substitution over any decomposition of the template into placeholder-free
segments joined by the placeholder. -/
theorem replaceInput_joinWith_all (x : Str) :
    ∀ (parts : List Str), (∀ p ∈ parts, containsPat inputPat p = false) →
      replaceInput x (joinWith inputPat parts) = joinWith x parts := by
  intro parts
  induction parts with
  | nil =>
    intro _
    rw [show joinWith inputPat [] = [] from rfl, replaceInput_nil]
    rfl
  | cons p rest ih =>
    intro hall
    cases rest with
    | nil =>
      rw [show joinWith inputPat [p] = p from rfl,
        replaceInput_of_not_contains x (hall p (List.mem_cons_self _ _))]
      rfl
    | cons q rest2 =>
      rw [joinWith, List.append_assoc,
        replaceInput_passthrough x (hall p (List.mem_cons_self _ _)),
        ih (fun r hr => hall r (List.mem_cons_of_mem _ hr))]
      rw [joinWith]

/-- Every template decomposes into placeholder-free segments joined by the
placeholder (the segments may contain literal braces, just not the full
placeholder). -/
theorem template_decomposition (t : Str) :
    ∃ parts : List Str, parts ≠ [] ∧ t = joinWith inputPat parts ∧
      ∀ p ∈ parts, containsPat inputPat p = false := by
  have main : ∀ (n : Nat) (t : Str), t.length ≤ n →
      ∃ parts : List Str, parts ≠ [] ∧ t = joinWith inputPat parts ∧
        ∀ p ∈ parts, containsPat inputPat p = false := by
    intro n
    induction n with
    | zero =>
      intro t ht
      have hnil : t = [] := List.length_eq_zero.mp (Nat.le_zero.mp ht)
      subst hnil
      refine ⟨[[]], by simp, rfl, ?_⟩
      intro p hp
      rw [List.mem_singleton.mp hp]
      rfl
    | succ n ih =>
      intro t ht
      cases hc : containsPat inputPat t with
      | false =>
        refine ⟨[t], by simp, rfl, ?_⟩
        intro p hp
        rw [List.mem_singleton.mp hp]
        exact hc
      | true =>
        obtain ⟨pre, suf, heq, hfree⟩ := containsPat_first_occurrence hc
        have hlen : suf.length ≤ n := by
          have hl := congrArg List.length heq
          rw [List.length_append, List.length_append,
            (show inputPat.length = 7 from rfl)] at hl
          omega
        obtain ⟨ps, hne, hjoin, hfreeall⟩ := ih suf hlen
        cases ps with
        | nil => exact absurd rfl hne
        | cons q rest =>
          refine ⟨pre :: q :: rest, by simp, ?_, ?_⟩
          · rw [heq, hjoin, joinWith]
            simp [List.append_assoc]
          · intro p hp
            rcases List.mem_cons.mp hp with h1 | h2
            · rw [h1]
              exact hfree
            · exact hfreeall p h2
  exact main t.length t le_rfl

/-! ## Claim theorems -/

/-- C1: in `process_text_handler`, an error from the cache lookup is handled
exactly like a miss — the provider is called and the error is never propagated
to the caller — and after a successful provider call the cache-store outcome
cannot change the response; in each case the response equals what the
cache-disabled pipeline returns on the same provider outcome. -/
theorem C1_cache_failures_never_affect_response :
    ∀ (e : AppError) (lr : Except AppError (Option Str))
      (pr : Except AppError Str) (sr sr' : Except AppError Unit),
      process_text_handler true (Except.error e) pr sr
        = process_text_handler false lr pr sr' ∧
      process_text_handler true (Except.ok none) pr sr
        = process_text_handler false lr pr sr' ∧
      (∀ (resp : Str) (en : Bool),
        process_text_handler en lr (Except.ok resp) sr
          = process_text_handler en lr (Except.ok resp) sr') := by
  intro e lr pr sr sr'
  refine ⟨?_, ?_, ?_⟩
  · cases pr <;> cases sr <;> simp [process_text_handler]
  · cases pr <;> cases sr <;> simp [process_text_handler]
  · intro resp en
    cases en with
    | false => simp [process_text_handler]
    | true =>
      rcases lr with e2 | o2
      · cases sr <;> cases sr' <;> simp [process_text_handler]
      · cases o2 <;> cases sr <;> cases sr' <;> simp [process_text_handler]

/-- C7: with caching disabled, `lookup` returns a miss with the database
untouched, `store` is a no-op leaving the database unchanged, and
`cleanup_expired` returns 0 without touching the database. -/
theorem C7_disabled_cache_bypass (cfg : CacheConfig) (hashFn : Str → Nat)
    (db : Db) (now : Nat) (text model response : Str) (tmplHash : Nat)
    (hdis : cfg.enabled = false) :
    CacheManager.lookup cfg hashFn db now text model tmplHash = (.ok none, db) ∧
    CacheManager.store cfg hashFn db now text response model tmplHash = (.ok (), db) ∧
    CacheManager.cleanup_expired cfg db now = (0, db) := by
  refine ⟨?_, ?_, ?_⟩ <;>
    simp [CacheManager.lookup, CacheManager.store, CacheManager.cleanup_expired, hdis]

/-- C7 witness at a concrete disabled configuration and non-empty database. -/
theorem C7_disabled_cache_bypass_witness :
    CacheManager.lookup ⟨false, 30, 100⟩ (fun _ => 0) [(0, ['v'])] 5 ['t'] ['m'] 0
      = (.ok none, [(0, ['v'])]) ∧
    CacheManager.store ⟨false, 30, 100⟩ (fun _ => 0) [(0, ['v'])] 5 ['t'] ['r'] ['m'] 0
      = (.ok (), [(0, ['v'])]) ∧
    CacheManager.cleanup_expired ⟨false, 30, 100⟩ [(0, ['v'])] 5 = (0, [(0, ['v'])]) :=
  C7_disabled_cache_bypass ⟨false, 30, 100⟩ (fun _ => 0) [(0, ['v'])] 5
    ['t'] ['m'] ['r'] 0 rfl

/-- C8: for a provider URL outside the Ollama family, an absent API key makes
the request-building phase of `query_llm` fail with the missing-credential
error before any request exists to send, and that error converts to HTTP 502
(upstream class); an Ollama-family URL succeeds with no auth header attached,
whatever the key configuration. -/
theorem C8_missing_credential (cfg : AppConfig) (text : Str) :
    (isOllamaFamily cfg.llm_url = false → cfg.openai_api_key = none →
      buildLlmRequest cfg text = .error (.LlmApiError "Missing OpenAI API key") ∧
      AppError.statusCode (.LlmApiError "Missing OpenAI API key") = some 502) ∧
    (isOllamaFamily cfg.llm_url = true →
      ∃ req, buildLlmRequest cfg text = .ok req ∧ req.authHeader = none) := by
  constructor
  · intro hurl hkey
    exact ⟨by simp [buildLlmRequest, hurl, hkey], rfl⟩
  · intro hurl
    have hok : buildLlmRequest cfg text
        = .ok { url := cfg.llm_url
                prompt := finalPrompt cfg.prompt_template text
                authHeader := none
                orgHeader := none
                projectHeader := none } := by
      simp [buildLlmRequest, hurl]
    exact ⟨_, hok, rfl⟩

/-- C8 witness: the default OpenAI responses URL with no configured key. -/
theorem C8_missing_credential_witness :
    buildLlmRequest
        ⟨"https://api.openai.com/v1/responses".toList, ['m'],
         none, none, none, none, ⟨true, 30, 100⟩⟩ ['h', 'i']
      = .error (.LlmApiError "Missing OpenAI API key") ∧
    AppError.statusCode (.LlmApiError "Missing OpenAI API key") = some 502 :=
  (C8_missing_credential
      ⟨"https://api.openai.com/v1/responses".toList, ['m'],
       none, none, none, none, ⟨true, 30, 100⟩⟩ ['h', 'i']).1 (by decide) rfl

/-- C10: with no template configured the final prompt is the raw input; with a
template, every occurrence of the placeholder is substituted with the raw
input text. Formalized for EVERY template: each template decomposes into
placeholder-free segments (which may contain literal braces) joined by the
placeholder — the occurrences — and the final prompt is exactly those
segments joined by the raw input text; conversely the substitution equation
holds for every such decomposition. -/
theorem C10_template_replaces_every_occurrence :
    (∀ text : Str, finalPrompt none text = text) ∧
    (∀ (template text : Str), ∃ parts : List Str,
      template = joinWith inputPat parts ∧
      (∀ p ∈ parts, containsPat inputPat p = false) ∧
      finalPrompt (some template) text = joinWith text parts) ∧
    (∀ (parts : List Str) (text : Str),
      (∀ p ∈ parts, containsPat inputPat p = false) →
      finalPrompt (some (joinWith inputPat parts)) text = joinWith text parts) := by
  refine ⟨fun text => rfl, ?_, ?_⟩
  · intro template text
    obtain ⟨parts, _, heq, hfree⟩ := template_decomposition template
    refine ⟨parts, heq, hfree, ?_⟩
    show replaceInput text template = joinWith text parts
    rw [heq]
    exact replaceInput_joinWith_all text parts hfree
  · intro parts text hfree
    show replaceInput text (joinWith inputPat parts) = joinWith text parts
    exact replaceInput_joinWith_all text parts hfree

/-- C10 witness: a template with a literal-brace segment (`"Dear \x7bname\x7d: "`)
followed by one placeholder occurrence; the segment survives and the
placeholder is substituted. -/
theorem C10_template_replaces_every_occurrence_witness :
    finalPrompt (some (joinWith inputPat
        [['D', 'e', 'a', 'r', ' ', '{', 'n', 'a', 'm', 'e', '}', ':', ' '], []]))
        ['X', 'Y']
      = joinWith ['X', 'Y']
          [['D', 'e', 'a', 'r', ' ', '{', 'n', 'a', 'm', 'e', '}', ':', ' '], []] :=
  C10_template_replaces_every_occurrence.2.2
    [['D', 'e', 'a', 'r', ' ', '{', 'n', 'a', 'm', 'e', '}', ':', ' '], []]
    ['X', 'Y'] (by decide)

/-- C2 counterexample: a stored value that fails to deserialize does NOT make
`lookup` return the entry-absent result: `lookup` returns a `CacheError`
(propagated by the `?` on `CacheEntry::from_bytes` at cache.rs:130), which
differs from the `Ok(None)` returned when the key is absent; the corrupt
bytes do remain stored. -/
theorem C2_corrupt_entry_counterexample :
    (CacheManager.lookup ⟨true, 30, 100⟩ (fun _ => 0)
        [(0, ['g', 'a', 'r', 'b', 'a', 'g', 'e'])] 5 ['t'] ['m'] 0).1
      = .error (.CacheError "Invalid cache entry format") ∧
    (CacheManager.lookup ⟨true, 30, 100⟩ (fun _ => 0)
        [(0, ['g', 'a', 'r', 'b', 'a', 'g', 'e'])] 5 ['t'] ['m'] 0).1
      ≠ (CacheManager.lookup ⟨true, 30, 100⟩ (fun _ => 0) [] 5 ['t'] ['m'] 0).1 ∧
    (CacheManager.lookup ⟨true, 30, 100⟩ (fun _ => 0)
        [(0, ['g', 'a', 'r', 'b', 'a', 'g', 'e'])] 5 ['t'] ['m'] 0).2
      = [(0, ['g', 'a', 'r', 'b', 'a', 'g', 'e'])] := by decide

/-- C2 amended: a stored value that fails to deserialize makes `lookup` return
that deserialization error to its caller, with the corrupt bytes left in
place; it is the HTTP pipeline, not `lookup`, that then treats the error
identically to a miss, so the pipeline-level outcome matches the
entry-absent case. -/
theorem C2_corrupt_entry_amended (cfg : CacheConfig) (hashFn : Str → Nat)
    (db : Db) (now : Nat) (text model : Str) (tmplHash : Nat) (v : Str)
    (err : AppError)
    (hen : cfg.enabled = true)
    (hget : dbGet db (CacheManager.generate_key hashFn text model tmplHash) = some v)
    (hbad : CacheEntry.from_bytes v = .error err) :
    CacheManager.lookup cfg hashFn db now text model tmplHash = (.error err, db) ∧
    (∀ (pr : Except AppError Str) (sr sr' : Except AppError Unit),
      process_text_handler true (.error err) pr sr
        = process_text_handler true (.ok none) pr sr') := by
  constructor
  · simp [CacheManager.lookup, hen, hget, hbad]
  · intro pr sr sr'
    cases pr <;> cases sr <;> cases sr' <;> simp [process_text_handler]

/-- C2 amended witness: the corrupt value `"garbage"` (only one field). -/
theorem C2_corrupt_entry_amended_witness :
    CacheManager.lookup ⟨true, 30, 100⟩ (fun _ => 0)
        [(0, ['g', 'a', 'r', 'b', 'a', 'g', 'e'])] 5 ['t'] ['m'] 0
      = (.error (.CacheError "Invalid cache entry format"),
         [(0, ['g', 'a', 'r', 'b', 'a', 'g', 'e'])]) :=
  (C2_corrupt_entry_amended ⟨true, 30, 100⟩ (fun _ => 0)
      [(0, ['g', 'a', 'r', 'b', 'a', 'g', 'e'])] 5 ['t'] ['m'] 0
      ['g', 'a', 'r', 'b', 'a', 'g', 'e']
      (.CacheError "Invalid cache entry format") rfl (by decide) (by decide)).1

/-- C3 counterexample: the round trip fails when the response contains the
delimiter `'|'`: the response is serialized as the FIRST field, so
`splitn(3, '|')` cuts it at its first `'|'` and the remaining fields
misparse — storing `"a|b"` and looking up the same triple yields a
`CacheError`, not the stored response. -/
theorem C3_roundtrip_counterexample :
    (CacheManager.lookup ⟨true, 1, 100⟩ (fun _ => 0)
        (CacheManager.store ⟨true, 1, 100⟩ (fun _ => 0) [] 0
          ['t'] ['a', '|', 'b'] ['m'] 0).2
        0 ['t'] ['m'] 0).1
      = .error (.CacheError "Invalid created_at timestamp") ∧
    (CacheManager.lookup ⟨true, 1, 100⟩ (fun _ => 0)
        (CacheManager.store ⟨true, 1, 100⟩ (fun _ => 0) [] 0
          ['t'] ['a', '|', 'b'] ['m'] 0).2
        0 ['t'] ['m'] 0).1
      ≠ .ok (some ['a', '|', 'b']) := by decide

/-- C3 amended: for every response NOT containing the delimiter `'|'`, with
caching enabled and the entry not yet expired at lookup time, storing and then
looking up the identical (text, model, template-hash) triple returns exactly
the stored response. -/
theorem C3_roundtrip_amended (cfg : CacheConfig) (hashFn : Str → Nat) (db : Db)
    (now now2 : Nat) (text model response : Str) (tmplHash : Nat)
    (hen : cfg.enabled = true)
    (hresp : '|' ∉ response)
    (hnow : now < U64MOD)
    (hfresh : (CacheEntry.new now response cfg.ttl_days).is_expired now2 = false) :
    CacheManager.lookup cfg hashFn
        (CacheManager.store cfg hashFn db now text response model tmplHash).2
        now2 text model tmplHash
      = (.ok (some response),
         (CacheManager.store cfg hashFn db now text response model tmplHash).2) := by
  have hxlt : (CacheEntry.new now response cfg.ttl_days).expires_at < U64MOD := by
    show (now + cfg.ttl_days * 24 * 60 * 60 % U64MOD) % U64MOD < U64MOD
    exact Nat.mod_lt _ (Nat.pos_pow_of_pos 64 (by omega))
  have hclt : (CacheEntry.new now response cfg.ttl_days).created_at < U64MOD := hnow
  have hrt := from_bytes_to_bytes (CacheEntry.new now response cfg.ttl_days)
    hresp hclt hxlt
  simp [CacheManager.store, hen]
  simp [CacheManager.lookup, hen, dbGet_insert_self, hrt, hfresh]
  rfl

/-- C3 amended witness: the delimiter-free response `"hi"` round-trips. -/
theorem C3_roundtrip_amended_witness :
    CacheManager.lookup ⟨true, 30, 100⟩ (fun _ => 0)
        (CacheManager.store ⟨true, 30, 100⟩ (fun _ => 0) [] 0
          ['t'] ['h', 'i'] ['m'] 0).2
        0 ['t'] ['m'] 0
      = (.ok (some ['h', 'i']),
         (CacheManager.store ⟨true, 30, 100⟩ (fun _ => 0) [] 0
           ['t'] ['h', 'i'] ['m'] 0).2) :=
  C3_roundtrip_amended ⟨true, 30, 100⟩ (fun _ => 0) [] 0 0 ['t'] ['m'] ['h', 'i'] 0
    rfl (by decide) (by decide) (by decide)

/-- C4: for a stored, deserializable entry, a lookup at a time strictly past
its `expires_at` deletes the entry and returns `None` (never the response);
a lookup at any time not past `expires_at` returns `Some` of its response
with the database untouched. -/
theorem C4_expiry_semantics (cfg : CacheConfig) (hashFn : Str → Nat) (db : Db)
    (now : Nat) (text model : Str) (tmplHash : Nat) (v : Str)
    (entry : CacheEntry)
    (hen : cfg.enabled = true)
    (hget : dbGet db (CacheManager.generate_key hashFn text model tmplHash) = some v)
    (hparse : CacheEntry.from_bytes v = .ok entry) :
    (entry.expires_at < now →
      CacheManager.lookup cfg hashFn db now text model tmplHash
        = (.ok none,
           dbRemove db (CacheManager.generate_key hashFn text model tmplHash))) ∧
    (¬ entry.expires_at < now →
      CacheManager.lookup cfg hashFn db now text model tmplHash
        = (.ok (some entry.response), db)) := by
  constructor
  · intro hexp
    simp [CacheManager.lookup, hen, hget, hparse, CacheEntry.is_expired, hexp]
  · intro hexp
    simp [CacheManager.lookup, hen, hget, hparse, CacheEntry.is_expired, hexp]

/-- C4 witness: the stored entry `"hi|0|5"` is expired at time 10; lookup
removes it and returns no response. -/
theorem C4_expiry_semantics_witness :
    CacheManager.lookup ⟨true, 30, 100⟩ (fun _ => 0)
        [(0, ['h', 'i', '|', '0', '|', '5'])] 10 ['t'] ['m'] 0
      = (.ok none, []) :=
  (C4_expiry_semantics ⟨true, 30, 100⟩ (fun _ => 0)
      [(0, ['h', 'i', '|', '0', '|', '5'])] 10 ['t'] ['m'] 0
      ['h', 'i', '|', '0', '|', '5'] ⟨['h', 'i'], 0, 5⟩
      rfl (by decide) (by decide)).1 (by decide)

/-- C5 counterexample: the length test and slice of `query_llm` are
byte-based (`trimmed.len()`, `trimmed[..2000]`), not character-based. A
response of 1999 copies of the two-byte character 'é' is at most 2000
characters, so the claim says it is returned unmodified after trimming —
but its 3998 bytes exceed the limit and the code truncates it to the first
2000 bytes (1000 characters) plus the marker. A response of 667 copies of
the three-byte character '€' (2001 bytes) puts byte offset 2000 in the
middle of a character and the byte slice panics (`none`). -/
theorem C5_truncation_counterexample :
    (trimChars (List.replicate 1999 'é')).length ≤ MAX_LENGTH ∧
    truncateExtracted (List.replicate 1999 'é')
      = some (List.replicate 1000 'é' ++ truncMarker) ∧
    truncateExtracted (List.replicate 1999 'é')
      ≠ some (trimChars (List.replicate 1999 'é')) ∧
    truncateExtracted (List.replicate 667 '€') = none := by
  have htrim : trimChars (List.replicate 1999 'é') = List.replicate 1999 'é' :=
    trimChars_of_no_ws (fun c hc => by rw [List.eq_of_mem_replicate hc]; rfl)
  have hsz : lenUtf8 'é' = 2 := by decide
  have hblen : byteLen (trimChars (List.replicate 1999 'é')) = 3998 := by
    rw [htrim, byteLen_replicate, hsz]
  have htake : byteTake MAX_LENGTH (trimChars (List.replicate 1999 'é'))
      = some (List.replicate 1000 'é') := by
    rw [htrim]
    have := byteTake_replicate (c := 'é') 1000 1999 (by omega)
    rw [hsz] at this
    exact this
  have hres : truncateExtracted (List.replicate 1999 'é')
      = some (List.replicate 1000 'é' ++ truncMarker) := by
    unfold truncateExtracted
    rw [if_pos (by rw [hblen]; norm_num [MAX_LENGTH]), htake]
    rfl
  refine ⟨?_, hres, ?_, ?_⟩
  · rw [htrim, List.length_replicate]
    norm_num [MAX_LENGTH]
  · rw [hres, htrim]
    intro h
    have hlen := congrArg List.length (Option.some.inj h)
    rw [List.length_append, List.length_replicate, List.length_replicate,
      (show truncMarker.length = 3 from rfl)] at hlen
    omega
  · have htrim2 : trimChars (List.replicate 667 '€') = List.replicate 667 '€' :=
      trimChars_of_no_ws (fun c hc => by rw [List.eq_of_mem_replicate hc]; rfl)
    have hsz2 : lenUtf8 '€' = 3 := by decide
    have hblen2 : byteLen (trimChars (List.replicate 667 '€')) = 2001 := by
      rw [htrim2, byteLen_replicate, hsz2]
    have htake2 : byteTake MAX_LENGTH (trimChars (List.replicate 667 '€')) = none := by
      rw [htrim2]
      have := byteTake_replicate_mid (c := '€') (r := 2)
        (by omega) (by rw [hsz2]; omega) 666 667 (by omega)
      rw [hsz2] at this
      exact this
    unfold truncateExtracted
    rw [if_pos (by rw [hblen2]; norm_num [MAX_LENGTH]), htake2]
    rfl

/-- C5 amended: after trimming Unicode whitespace, the length test and the
truncation of `query_llm` operate on UTF-8 bytes: a trimmed text of at most
`MAX_LENGTH` (2000) bytes is returned unmodified; a longer text is cut to its
first-2000-bytes prefix with the truncation marker appended when byte offset
2000 is a character boundary, and the byte slice panics when it is not. (For
ASCII text, bytes coincide with characters, giving the claim's stated
behavior.) -/
theorem C5_truncation_amended (content : Str) :
    (byteLen (trimChars content) ≤ MAX_LENGTH →
      truncateExtracted content = some (trimChars content)) ∧
    (byteLen (trimChars content) > MAX_LENGTH →
      (∀ pre, byteTake MAX_LENGTH (trimChars content) = some pre →
        truncateExtracted content = some (pre ++ truncMarker) ∧
        byteLen pre = MAX_LENGTH) ∧
      (byteTake MAX_LENGTH (trimChars content) = none →
        truncateExtracted content = none)) := by
  constructor
  · intro h
    unfold truncateExtracted
    rw [if_neg (by omega)]
  · intro h
    constructor
    · intro pre hpre
      constructor
      · unfold truncateExtracted
        rw [if_pos h, hpre]
        rfl
      · exact byteTake_some_byteLen hpre
    · intro hnone
      unfold truncateExtracted
      rw [if_pos h, hnone]
      rfl

/-- C5 amended witness: 2001 ASCII bytes truncate to the 2000-byte prefix
plus the marker. -/
theorem C5_truncation_amended_witness :
    truncateExtracted (List.replicate 2001 'a')
      = some (List.replicate 2000 'a' ++ truncMarker) ∧
    byteLen (List.replicate 2000 'a') = MAX_LENGTH := by
  have htrim : trimChars (List.replicate 2001 'a') = List.replicate 2001 'a' :=
    trimChars_of_no_ws (fun c hc => by rw [List.eq_of_mem_replicate hc]; rfl)
  have hsz : lenUtf8 'a' = 1 := by decide
  have hlen : byteLen (trimChars (List.replicate 2001 'a')) > MAX_LENGTH := by
    rw [htrim, byteLen_replicate, hsz]
    norm_num [MAX_LENGTH]
  have htake : byteTake MAX_LENGTH (trimChars (List.replicate 2001 'a'))
      = some (List.replicate 2000 'a') := by
    rw [htrim]
    have := byteTake_replicate (c := 'a') 2000 2001 (by omega)
    rw [hsz] at this
    exact this
  exact ((C5_truncation_amended (List.replicate 2001 'a')).2 hlen).1
    (List.replicate 2000 'a') htake

/-- C6 counterexample: with `ttl_days = 0`, immediately after `store` (the
same clock second) `expires_at` equals the current time, so the strict
comparison in `is_expired` says NOT expired, and a lookup at that second
returns the stored response instead of `None`. -/
theorem C6_zero_ttl_counterexample :
    (CacheEntry.new 100 ['h', 'i'] 0).is_expired 100 = false ∧
    (CacheManager.lookup ⟨true, 0, 100⟩ (fun _ => 0)
        (CacheManager.store ⟨true, 0, 100⟩ (fun _ => 0) [] 100
          ['t'] ['h', 'i'] ['m'] 0).2
        100 ['t'] ['m'] 0).1
      = .ok (some ['h', 'i']) := by decide

/-- C6 amended: with `ttl_days = 0` the entry's `expires_at` equals the store
time, so the entry is expired for every lookup at a strictly later second:
such a lookup returns `None` and removes the entry from the database. (At
the very second of the store, `is_expired` is still false and lookup returns
the response — the counterexample.) -/
theorem C6_zero_ttl_amended (cfg : CacheConfig) (hashFn : Str → Nat) (db : Db)
    (now now2 : Nat) (text response model : Str) (tmplHash : Nat)
    (hen : cfg.enabled = true) (httl : cfg.ttl_days = 0)
    (hnow : now < U64MOD) (hresp : '|' ∉ response) (hlt : now < now2) :
    (CacheEntry.new now response cfg.ttl_days).is_expired now2 = true ∧
    CacheManager.lookup cfg hashFn
        (CacheManager.store cfg hashFn db now text response model tmplHash).2
        now2 text model tmplHash
      = (.ok none,
         dbRemove (CacheManager.store cfg hashFn db now text response model tmplHash).2
           (CacheManager.generate_key hashFn text model tmplHash)) ∧
    dbGet (CacheManager.lookup cfg hashFn
        (CacheManager.store cfg hashFn db now text response model tmplHash).2
        now2 text model tmplHash).2
      (CacheManager.generate_key hashFn text model tmplHash) = none := by
  have hxeq : (CacheEntry.new now response cfg.ttl_days).expires_at = now := by
    show (now + cfg.ttl_days * 24 * 60 * 60 % U64MOD) % U64MOD = now
    rw [httl]
    simpa using Nat.mod_eq_of_lt hnow
  have hexp : (CacheEntry.new now response cfg.ttl_days).is_expired now2 = true := by
    unfold CacheEntry.is_expired
    rw [hxeq]
    simp [hlt]
  have hxlt : (CacheEntry.new now response cfg.ttl_days).expires_at < U64MOD := by
    rw [hxeq]; exact hnow
  have hrt := from_bytes_to_bytes (CacheEntry.new now response cfg.ttl_days)
    hresp hnow hxlt
  have hlook : CacheManager.lookup cfg hashFn
      (CacheManager.store cfg hashFn db now text response model tmplHash).2
      now2 text model tmplHash
      = (.ok none,
         dbRemove (CacheManager.store cfg hashFn db now text response model tmplHash).2
           (CacheManager.generate_key hashFn text model tmplHash)) := by
    simp [CacheManager.store, hen]
    simp [CacheManager.lookup, hen, dbGet_insert_self, hrt, hexp]
  refine ⟨hexp, hlook, ?_⟩
  rw [hlook]
  exact dbGet_dbRemove_self _ _

/-- C6 amended witness: store at second 100 with TTL 0, lookup at second 101. -/
theorem C6_zero_ttl_amended_witness :
    (CacheEntry.new 100 ['h', 'i'] 0).is_expired 101 = true ∧
    CacheManager.lookup ⟨true, 0, 100⟩ (fun _ => 0)
        (CacheManager.store ⟨true, 0, 100⟩ (fun _ => 0) [] 100
          ['t'] ['h', 'i'] ['m'] 0).2
        101 ['t'] ['m'] 0
      = (.ok none, []) ∧
    dbGet (CacheManager.lookup ⟨true, 0, 100⟩ (fun _ => 0)
        (CacheManager.store ⟨true, 0, 100⟩ (fun _ => 0) [] 100
          ['t'] ['h', 'i'] ['m'] 0).2
        101 ['t'] ['m'] 0).2 0 = none :=
  C6_zero_ttl_amended ⟨true, 0, 100⟩ (fun _ => 0) [] 100 101
    ['t'] ['h', 'i'] ['m'] 0 rfl rfl (by decide) (by decide) (by decide)

/-- C9: an entry created on a store has `created_at` equal to the clock value
at creation and (absent u64 overflow) `expires_at = created_at +
ttl_days*86400`, and the stored value is exactly that entry's serialization;
no operation mutates a stored binding: after `store` every binding is an old
one or the newly created one, and after `lookup` or `cleanup_expired` every
binding is an old one (entries are only created, read, or deleted). -/
theorem C9_entry_invariant (cfg : CacheConfig) (hashFn : Str → Nat) (db : Db)
    (now now2 now3 : Nat) (text response model : Str) (tmplHash : Nat)
    (hov : now + cfg.ttl_days * 86400 < U64MOD) :
    ((CacheEntry.new now response cfg.ttl_days).created_at = now ∧
     (CacheEntry.new now response cfg.ttl_days).expires_at
       = (CacheEntry.new now response cfg.ttl_days).created_at
         + cfg.ttl_days * 86400) ∧
    (∀ kv ∈ (CacheManager.store cfg hashFn db now text response model tmplHash).2,
       kv ∈ db ∨ kv = (CacheManager.generate_key hashFn text model tmplHash,
                       (CacheEntry.new now response cfg.ttl_days).to_bytes)) ∧
    (∀ kv ∈ (CacheManager.lookup cfg hashFn db now2 text model tmplHash).2,
       kv ∈ db) ∧
    (∀ kv ∈ (CacheManager.cleanup_expired cfg db now3).2, kv ∈ db) := by
  have hM : U64MOD = 18446744073709551616 := by norm_num [U64MOD]
  refine ⟨⟨rfl, ?_⟩, ?_, ?_, ?_⟩
  · show (now + cfg.ttl_days * 24 * 60 * 60 % U64MOD) % U64MOD = now + cfg.ttl_days * 86400
    rw [hM] at hov ⊢
    omega
  · intro kv hkv
    by_cases hcfg : cfg.enabled
    · simp only [CacheManager.store, hcfg, Bool.not_true, if_neg] at hkv
      simp only [Bool.false_eq_true, if_false, dbInsert] at hkv
      rcases List.mem_cons.mp hkv with h1 | h2
      · exact Or.inr h1
      · exact Or.inl (mem_dbRemove h2)
    · simp only [CacheManager.store, hcfg] at hkv
      simp at hkv
      exact Or.inl hkv
  · intro kv hkv
    rcases lookup_snd_cases cfg hashFn db now2 text model tmplHash with hc | hc
    · rw [hc] at hkv
      exact hkv
    · rw [hc] at hkv
      exact mem_dbRemove hkv
  · intro kv hkv
    by_cases hcfg : cfg.enabled
    · simp only [CacheManager.cleanup_expired, hcfg, Bool.not_true,
        Bool.false_eq_true, if_false] at hkv
      exact (List.mem_filter.mp hkv).1
    · simp only [CacheManager.cleanup_expired, hcfg] at hkv
      simp at hkv
      exact hkv

/-- C9 witness: the timestamp equation at a concrete store. -/
theorem C9_entry_invariant_witness :
    (CacheEntry.new 0 ['h', 'i'] 1).created_at = 0 ∧
    (CacheEntry.new 0 ['h', 'i'] 1).expires_at
      = (CacheEntry.new 0 ['h', 'i'] 1).created_at + 1 * 86400 :=
  (C9_entry_invariant ⟨true, 1, 100⟩ (fun _ => 0) [] 0 0 0
    ['t'] ['h', 'i'] ['m'] 0 (by decide)).1

end WriterAI
